import Mathlib

/-!
Verification of the device-to-device memory-copy core in `src/GpuMemcpy.cpp`.

The development shallowly embeds the three copy strategies (scalar,
vectorized, register-blocked), the launch-geometry computation shared by the
dispatch entry points, and the per-backend host-side effect structure of the
entry points.

Modelling conventions:
* Device memories are total functions `ℕ → α` from element index to value.
* A kernel launch is modelled by running every thread of the grid, in global
  thread-id order, as a state transformer on the destination memory; each
  thread function is a direct translation of the corresponding kernel loop.
  (All device writes store values read from the untouched source buffer, so
  the result is independent of thread interleaving; the exactly-once write
  disciplines are proved separately as count theorems.)
* The C++ `int` arithmetic involved acts on non-negative values, where it
  agrees with `ℕ` arithmetic.  The one subtle point is `(0 - 1)/64 + 1`:
  C++ truncating division gives `(-1)/64 = 0`, and `ℕ` saturating
  subtraction gives `0 - 1 = 0`, so both evaluate to `1`.
* Grid-stride loops are embedded with an explicit fuel argument; a fuel of
  `n` (the loop bound) always dominates the iteration count, which the
  characterization lemmas make precise.
-/

namespace GpuMemcpy

universe u

/-- thread-group size: `const int numthread = 64` (GpuMemcpy.cpp line 35). -/
def numthread : ℕ := 64

/-- launch-geometry formula shared by the three dispatch entry points:
`(n/G - 1)/numthread + 1` with truncating division, where `G` is the
element-granularity divisor of the strategy. -/
def launchGroupCount (n G : ℕ) : ℕ := (n / G - 1) / numthread + 1

/-- block count computed by `scalarCopy` (line 56): `(n - 1)/numthread + 1`. -/
def scalarNumblock (n : ℕ) : ℕ := (n - 1) / numthread + 1

/-- block count computed by `vectorCopy` (line 112):
`(n/vectorLength - 1)/numthread + 1`. -/
def vectorNumblock (vL n : ℕ) : ℕ := (n / vL - 1) / numthread + 1

/-- block count computed by `memcpyFloat` (line 183):
`(n/(4*NUM_ELEM) - 1)/numthread + 1` with `NUM_ELEM = 2`. -/
def mfNumblock (n : ℕ) : ℕ := (n / (4 * 2) - 1) / numthread + 1

theorem scalarNumblock_pos (n : ℕ) : 0 < scalarNumblock n :=
  Nat.succ_le_succ (Nat.zero_le _)

theorem vectorNumblock_pos (vL n : ℕ) : 0 < vectorNumblock vL n :=
  Nat.succ_le_succ (Nat.zero_le _)

theorem mfNumblock_pos (n : ℕ) : 0 < mfNumblock n :=
  Nat.succ_le_succ (Nat.zero_le _)

/-- C2 (amended): every dispatch entry point computes its block count by the
shared formula `(N/G - 1)/64 + 1`, with granularity `G = 1` for the scalar
strategy, `G = vectorLength` for the vector strategy, and `G = 4*NUM_ELEM = 8`
(not the wide-word width `4`) for the register-blocked strategy.  The value
returned is the minimal *positive* group count with
`group_count * threads_per_group ≥ N/G` (it covers all full `G`-granules;
it need not satisfy `group_count * threads_per_group * G ≥ N`). -/
theorem launchGroupCount_minimal_positive (n G : ℕ) :
    scalarNumblock n = launchGroupCount n 1
    ∧ vectorNumblock G n = launchGroupCount n G
    ∧ mfNumblock n = launchGroupCount n (4 * 2)
    ∧ 1 ≤ launchGroupCount n G
    ∧ n / G ≤ launchGroupCount n G * numthread
    ∧ ∀ c, 1 ≤ c → n / G ≤ c * numthread → launchGroupCount n G ≤ c := by
  have hform : ∀ M : ℕ, M ≤ ((M - 1) / 64 + 1) * 64 ∧
      ∀ c, 1 ≤ c → M ≤ c * 64 → (M - 1) / 64 + 1 ≤ c := by
    intro M
    constructor
    · omega
    · intro c h1 h2
      omega
  refine ⟨?_, rfl, rfl, Nat.succ_le_succ (Nat.zero_le _), ?_, ?_⟩
  · simp [scalarNumblock, launchGroupCount]
  · simpa [launchGroupCount, numthread] using (hform (n / G)).1
  · intro c h1 h2
    have := (hform (n / G)).2 c h1
    simp only [launchGroupCount, numthread] at h2 ⊢
    omega

/-- witness for `launchGroupCount_minimal_positive` at `n = 257`, `G = 4`,
`c = 5`. -/
theorem launchGroupCount_minimal_positive_witness :
    1 ≤ 5 ∧ 257 / 4 ≤ 5 * numthread ∧ launchGroupCount 257 4 ≤ 5 :=
  ⟨by decide, by decide,
    (launchGroupCount_minimal_positive 257 4).2.2.2.2.2 5 (by decide) (by decide)⟩

/-- C2 counterexample: for `N = 257` with the vector strategy for 32-bit
elements (`G = vectorLength = 4`), the computed group count is `1`, and
`1 * threads_per_group * G = 256 < 257`, so the returned count does not
satisfy the coverage bound claimed for it. -/
theorem launchGroupCount_not_covering :
    vectorNumblock 4 257 = 1 ∧ launchGroupCount 257 4 * numthread * 4 < 257 := by
  decide

/-- C9: for fixed granularity `G`, the computed group count is monotone
non-decreasing in the element count `N`. -/
theorem launchGroupCount_monotone (G n1 n2 : ℕ) (h : n1 ≤ n2) :
    launchGroupCount n1 G ≤ launchGroupCount n2 G := by
  have h1 : n1 / G ≤ n2 / G := Nat.div_le_div_right h
  simp only [launchGroupCount, numthread]
  omega

/-- witness for `launchGroupCount_monotone` at `G = 3`, `n1 = 5`, `n2 = 500`. -/
theorem launchGroupCount_monotone_witness :
    5 ≤ 500 ∧ launchGroupCount 5 3 ≤ launchGroupCount 500 3 :=
  ⟨by decide, launchGroupCount_monotone 3 5 500 (by decide)⟩

/-- grid-stride element copy loop,
`for (i = start; i < n; i += stride) data_out[i] = data_in[i]`
(scalarCopyKernel line 48, vectorCopyKernel remainder loop line 102).
The fuel argument bounds the number of iterations; it is instantiated with
`n`, which the characterization lemma shows is always enough. -/
def copyLoop {α : Type u} (din : ℕ → α) (n stride : ℕ) :
    ℕ → ℕ → (ℕ → α) → (ℕ → α)
  | 0, _, dout => dout
  | fuel + 1, i, dout =>
    if i < n then
      copyLoop din n stride fuel (i + stride) (Function.update dout i (din i))
    else dout

/-- shifting the start of an arithmetic progression by one stride does not
change membership of any point other than the start itself. -/
theorem stride_cond_shift (stride i w : ℕ) (hs : 0 < stride) (hne : w ≠ i) :
    (i + stride ≤ w ∧ (w - (i + stride)) % stride = 0)
      ↔ (i ≤ w ∧ (w - i) % stride = 0) := by
  have hsub : ∀ d, stride ≤ d → (d - stride) % stride = d % stride := by
    intro d hd
    conv_rhs => rw [← Nat.sub_add_cancel hd]
    rw [Nat.add_mod_right]
  constructor
  · rintro ⟨h1, h2⟩
    refine ⟨by omega, ?_⟩
    have he : w - (i + stride) = w - i - stride := by omega
    rw [he] at h2
    rw [← hsub (w - i) (by omega)]
    exact h2
  · rintro ⟨h1, h2⟩
    have hpos : 0 < w - i := by omega
    have hdvd : stride ∣ (w - i) := Nat.dvd_of_mod_eq_zero h2
    have hle : stride ≤ w - i := Nat.le_of_dvd hpos hdvd
    refine ⟨by omega, ?_⟩
    have he : w - (i + stride) = w - i - stride := by omega
    rw [he, hsub (w - i) hle]
    exact h2

/-- characterization of `copyLoop`: with positive stride and enough fuel, the
loop writes `din` exactly on the arithmetic progression starting at `i` with
the given stride, restricted to `[0, n)`. -/
theorem copyLoop_apply {α : Type u} (din : ℕ → α) (n stride : ℕ) (hs : 0 < stride) :
    ∀ (fuel i : ℕ) (dout : ℕ → α) (j : ℕ), n ≤ fuel + i →
      copyLoop din n stride fuel i dout j =
        if i ≤ j ∧ j < n ∧ (j - i) % stride = 0 then din j else dout j := by
  intro fuel
  induction fuel with
  | zero =>
    intro i dout j hfi
    simp only [copyLoop]
    split_ifs with hc
    · omega
    · rfl
  | succ fuel ih =>
    intro i dout j hfi
    simp only [copyLoop]
    by_cases hi : i < n
    · rw [if_pos hi, ih (i + stride) _ j (by omega)]
      by_cases hji : j = i
      · subst hji
        rw [if_neg (by omega), if_pos ⟨le_refl j, hi, by simp⟩,
          Function.update_same]
      · rw [Function.update_noteq hji]
        by_cases houter : i ≤ j ∧ j < n ∧ (j - i) % stride = 0
        · have hin : i + stride ≤ j ∧ (j - (i + stride)) % stride = 0 :=
            (stride_cond_shift stride i j hs hji).mpr ⟨houter.1, houter.2.2⟩
          rw [if_pos ⟨hin.1, houter.2.1, hin.2⟩, if_pos houter]
        · rw [if_neg houter, if_neg ?_]
          rintro ⟨h1, h2, h3⟩
          exact houter ⟨((stride_cond_shift stride i j hs hji).mp ⟨h1, h3⟩).1, h2,
            ((stride_cond_shift stride i j hs hji).mp ⟨h1, h3⟩).2⟩
    · rw [if_neg hi, if_neg ?_]
      rintro ⟨h1, h2, _⟩
      omega

/-- sequential execution of the threads `0, …, K-1` of a grid, each acting as
a state transformer on the destination memory. -/
def runThreads {α : Type u} (f : ℕ → (ℕ → α) → (ℕ → α)) :
    ℕ → (ℕ → α) → (ℕ → α)
  | 0, dout => dout
  | k + 1, dout => f k (runThreads f k dout)

/-- if every thread writes `din j` at the indices its footprint `S` covers and
leaves other indices alone, then any index covered by some thread of the grid
ends up holding `din j`. -/
theorem runThreads_mem {α : Type u} (f : ℕ → (ℕ → α) → (ℕ → α)) (din : ℕ → α)
    (S : ℕ → ℕ → Prop)
    (hf1 : ∀ k dout j, S k j → f k dout j = din j)
    (hf2 : ∀ k dout j, ¬ S k j → f k dout j = dout j) :
    ∀ (K : ℕ) (init : ℕ → α) (j : ℕ), (∃ k, k < K ∧ S k j) →
      runThreads f K init j = din j := by
  intro K
  induction K with
  | zero =>
    rintro init j ⟨k, hk, _⟩
    omega
  | succ K ih =>
    rintro init j ⟨k, hk, hS⟩
    simp only [runThreads]
    by_cases hSK : S K j
    · exact hf1 K _ j hSK
    · rw [hf2 K _ j hSK]
      have hkK : k < K := by
        rcases Nat.lt_succ_iff_lt_or_eq.mp hk with h | h
        · exact h
        · subst h; exact absurd hS hSK
      exact ih init j ⟨k, hkK, hS⟩

/-- indices outside every thread's footprint are unchanged by the grid. -/
theorem runThreads_not_mem {α : Type u} (f : ℕ → (ℕ → α) → (ℕ → α))
    (S : ℕ → ℕ → Prop)
    (hf2 : ∀ k dout j, ¬ S k j → f k dout j = dout j) :
    ∀ (K : ℕ) (init : ℕ → α) (j : ℕ), (∀ k, k < K → ¬ S k j) →
      runThreads f K init j = init j := by
  intro K
  induction K with
  | zero => intro init j _; rfl
  | succ K ih =>
    intro init j hS
    simp only [runThreads]
    rw [hf2 K _ j (hS K (Nat.lt_succ_self K)), ih init j
      (fun k hk => hS k (Nat.lt_succ_of_lt hk))]

/-- one thread of `scalarCopyKernel` (lines 47-51):
`for (i = threadIdx + blockIdx*blockDim; i < n; i += blockDim*gridDim)
  data_out[i] = data_in[i]`. -/
def scalarCopyKernelThread {α : Type u} (din : ℕ → α) (n bdim gdim t b : ℕ)
    (dout : ℕ → α) : ℕ → α :=
  copyLoop din n (bdim * gdim) n (t + b * bdim) dout

/-- full device effect of `scalarCopy` (lines 54-77): the grid launched with
`scalarNumblock n` blocks of `numthread` threads runs `scalarCopyKernel`. -/
def scalarCopyRun {α : Type u} (n : ℕ) (din dout : ℕ → α) : ℕ → α :=
  runThreads
    (fun g => scalarCopyKernelThread din n numthread (scalarNumblock n)
      (g % numthread) (g / numthread))
    (numthread * scalarNumblock n) dout

theorem scalarCopyRun_apply {α : Type u} (n : ℕ) (din dout : ℕ → α) (j : ℕ) :
    scalarCopyRun n din dout j = if j < n then din j else dout j := by
  have htot : 0 < numthread * scalarNumblock n :=
    Nat.mul_pos (by decide) (scalarNumblock_pos n)
  have hthread : ∀ (g : ℕ) (dout0 : ℕ → α) (j0 : ℕ),
      scalarCopyKernelThread din n numthread (scalarNumblock n)
          (g % numthread) (g / numthread) dout0 j0 =
        if g ≤ j0 ∧ j0 < n ∧ (j0 - g) % (numthread * scalarNumblock n) = 0
        then din j0 else dout0 j0 := by
    intro g dout0 j0
    unfold scalarCopyKernelThread
    rw [Nat.mod_add_div' g numthread]
    exact copyLoop_apply din n _ htot n g dout0 j0 (Nat.le_add_right n g)
  by_cases hj : j < n
  · rw [if_pos hj]
    apply runThreads_mem _ din
      (fun g j0 => g ≤ j0 ∧ j0 < n ∧ (j0 - g) % (numthread * scalarNumblock n) = 0)
    · intro k dout0 j0 hS
      rw [hthread k dout0 j0, if_pos hS]
    · intro k dout0 j0 hS
      rw [hthread k dout0 j0, if_neg hS]
    · refine ⟨j % (numthread * scalarNumblock n), Nat.mod_lt j htot,
        Nat.mod_le j _, hj, ?_⟩
      have h0 := Nat.div_add_mod j (numthread * scalarNumblock n)
      have h1 : j - j % (numthread * scalarNumblock n) =
          numthread * scalarNumblock n * (j / (numthread * scalarNumblock n)) := by
        omega
      rw [h1]
      exact Nat.mul_mod_right _ _
  · rw [if_neg hj]
    apply runThreads_not_mem _
      (fun g j0 => g ≤ j0 ∧ j0 < n ∧ (j0 - g) % (numthread * scalarNumblock n) = 0)
    · intro k dout0 j0 hS
      rw [hthread k dout0 j0, if_neg hS]
    · rintro k _ ⟨_, h2, _⟩
      exact hj h2

/-- a wide-word store,
`reinterpret_cast<int4_t*>(data_out)[w] = reinterpret_cast<int4_t*>(data_in)[w]`
(line 98): copies the `vL` elements of wide word `w` at once. -/
def writeWide {α : Type u} (vL : ℕ) (din : ℕ → α) (w : ℕ) (dout : ℕ → α) :
    ℕ → α :=
  fun j => if vL * w ≤ j ∧ j < vL * (w + 1) then din j else dout j

/-- an element index lies inside wide word `w` exactly when its wide index is
`w`. -/
theorem div_eq_iff_interval (vL w j : ℕ) (hvL : 0 < vL) :
    j / vL = w ↔ vL * w ≤ j ∧ j < vL * (w + 1) := by
  constructor
  · intro h
    have h0 := Nat.div_add_mod j vL
    have h1 : j % vL < vL := Nat.mod_lt j hvL
    have h2 : vL * (w + 1) = vL * w + vL := by ring
    rw [h2, ← h]
    omega
  · rintro ⟨h1, h2⟩
    refine Nat.le_antisymm ?_ ?_
    · have := (Nat.div_lt_iff_lt_mul hvL).mpr (by rw [Nat.mul_comm] at h2; exact h2)
      omega
    · exact (Nat.le_div_iff_mul_le hvL).mpr (by rw [Nat.mul_comm] at h1; exact h1)

/-- grid-stride wide-word copy loop, phase 1 of `vectorCopyKernel`
(lines 97-99): `for (i = idx; i < n/vectorLength; i += blockDim*gridDim)`
copying one wide word per iteration. -/
def copyWideLoop {α : Type u} (vL : ℕ) (din : ℕ → α) (m stride : ℕ) :
    ℕ → ℕ → (ℕ → α) → (ℕ → α)
  | 0, _, dout => dout
  | fuel + 1, i, dout =>
    if i < m then
      copyWideLoop vL din m stride fuel (i + stride) (writeWide vL din i dout)
    else dout

/-- characterization of `copyWideLoop`: an element is overwritten exactly when
its wide index lies on the loop's arithmetic progression below `m`. -/
theorem copyWideLoop_apply {α : Type u} (vL : ℕ) (din : ℕ → α) (m stride : ℕ)
    (hvL : 0 < vL) (hs : 0 < stride) :
    ∀ (fuel i : ℕ) (dout : ℕ → α) (j : ℕ), m ≤ fuel + i →
      copyWideLoop vL din m stride fuel i dout j =
        if i ≤ j / vL ∧ j / vL < m ∧ (j / vL - i) % stride = 0
        then din j else dout j := by
  intro fuel
  induction fuel with
  | zero =>
    intro i dout j hfi
    simp only [copyWideLoop]
    split_ifs with hc
    · omega
    · rfl
  | succ fuel ih =>
    intro i dout j hfi
    simp only [copyWideLoop]
    by_cases hi : i < m
    · rw [if_pos hi, ih (i + stride) _ j (by omega)]
      by_cases hji : j / vL = i
      · rw [if_neg (by omega)]
        have hw : vL * i ≤ j ∧ j < vL * (i + 1) :=
          (div_eq_iff_interval vL i j hvL).mp hji
        rw [if_pos ⟨by omega, by omega, by simp [hji]⟩]
        unfold writeWide
        rw [if_pos hw]
      · have hwneg : ¬ (vL * i ≤ j ∧ j < vL * (i + 1)) := by
          intro hw
          exact hji ((div_eq_iff_interval vL i j hvL).mpr hw)
        have hwrite : writeWide vL din i dout j = dout j := by
          unfold writeWide
          rw [if_neg hwneg]
        rw [hwrite]
        by_cases houter : i ≤ j / vL ∧ j / vL < m ∧ (j / vL - i) % stride = 0
        · have hin : i + stride ≤ j / vL ∧ (j / vL - (i + stride)) % stride = 0 :=
            (stride_cond_shift stride i (j / vL) hs hji).mpr ⟨houter.1, houter.2.2⟩
          rw [if_pos ⟨hin.1, houter.2.1, hin.2⟩, if_pos houter]
        · rw [if_neg houter, if_neg ?_]
          rintro ⟨h1, h2, h3⟩
          have := (stride_cond_shift stride i (j / vL) hs hji).mp ⟨h1, h3⟩
          exact houter ⟨this.1, h2, this.2⟩
    · rw [if_neg hi, if_neg ?_]
      rintro ⟨h1, h2, _⟩
      omega

/-- per-iteration stride of phase 2 of `vectorCopyKernel` (line 102):
`i += blockDim_x*gridDim_x + threadIdx_x`. -/
def vectorPhase2Stride (bdim gdim t : ℕ) : ℕ := bdim * gdim + t

/-- one thread of `vectorCopyKernel` (lines 90-105): phase 1 copies wide words
of `16/sizeof(T) = vL` elements over `[0, n/vL)` in a grid-stride loop; phase
2 copies the remaining elements one at a time starting at
`idx + (n/vL)*vL`, advancing by `vectorPhase2Stride`. -/
def vectorCopyKernelThread {α : Type u} (din : ℕ → α) (vL n bdim gdim t b : ℕ)
    (dout : ℕ → α) : ℕ → α :=
  copyLoop din n (vectorPhase2Stride bdim gdim t) n
    (t + b * bdim + (n / vL) * vL)
    (copyWideLoop vL din (n / vL) (bdim * gdim) (n / vL) (t + b * bdim) dout)

/-- full device effect of `vectorCopy` (lines 108-133): the grid launched with
`vectorNumblock vL n` blocks of `numthread` threads runs `vectorCopyKernel`. -/
def vectorCopyRun {α : Type u} (vL n : ℕ) (din dout : ℕ → α) : ℕ → α :=
  runThreads
    (fun g => vectorCopyKernelThread din vL n numthread (vectorNumblock vL n)
      (g % numthread) (g / numthread))
    (numthread * vectorNumblock vL n) dout

/-- phase-1 footprint of vector-kernel thread `g`: element `j` is covered when
its wide index lies on the thread's grid-stride progression below `n/vL`. -/
def vecS1 (vL n total g j : ℕ) : Prop :=
  g ≤ j / vL ∧ j / vL < n / vL ∧ (j / vL - g) % total = 0

/-- phase-2 footprint of vector-kernel thread `g`: element `j` is covered when
it lies on the remainder progression starting at `g + (n/vL)*vL` with the
(buggy) stride `total + threadIdx`. -/
def vecS2 (vL n total g j : ℕ) : Prop :=
  g + (n / vL) * vL ≤ j ∧ j < n ∧
    (j - (g + (n / vL) * vL)) % (total + g % numthread) = 0

instance (vL n total g j : ℕ) : Decidable (vecS1 vL n total g j) := by
  unfold vecS1; infer_instance

instance (vL n total g j : ℕ) : Decidable (vecS2 vL n total g j) := by
  unfold vecS2; infer_instance

/-- pointwise effect of one vector-kernel thread, by composing the two phase
characterizations. -/
theorem vectorCopyKernelThread_apply {α : Type u} (din : ℕ → α) (vL n : ℕ)
    (hvL : 0 < vL) (g : ℕ) (dout : ℕ → α) (j : ℕ) :
    vectorCopyKernelThread din vL n numthread (vectorNumblock vL n)
        (g % numthread) (g / numthread) dout j =
      if vecS2 vL n (numthread * vectorNumblock vL n) g j then din j
      else if vecS1 vL n (numthread * vectorNumblock vL n) g j then din j
      else dout j := by
  have htot : 0 < numthread * vectorNumblock vL n :=
    Nat.mul_pos (by decide) (vectorNumblock_pos vL n)
  unfold vectorCopyKernelThread vectorPhase2Stride
  rw [Nat.mod_add_div' g numthread]
  rw [copyLoop_apply din n _ (by omega) n (g + (n / vL) * vL) _ j (by omega)]
  rw [copyWideLoop_apply vL din (n / vL) _ hvL htot (n / vL) g dout j
    (Nat.le_add_right _ g)]
  rfl

/-- full pointwise characterization of the vector strategy: with the launch
geometry computed by `vectorCopy`, every element of `[0, n)` receives its
source value and every other element is unchanged, for any wide width
`0 < vL ≤ numthread`. -/
theorem vectorCopyRun_apply {α : Type u} (vL n : ℕ) (hvL : 0 < vL)
    (hvL64 : vL ≤ numthread) (din dout : ℕ → α) (j : ℕ) :
    vectorCopyRun vL n din dout j = if j < n then din j else dout j := by
  have htot : 0 < numthread * vectorNumblock vL n :=
    Nat.mul_pos (by decide) (vectorNumblock_pos vL n)
  have htot64 : numthread ≤ numthread * vectorNumblock vL n := by
    have h := Nat.mul_le_mul_left numthread (vectorNumblock_pos vL n)
    simpa using h
  have hf1 : ∀ k (dout0 : ℕ → α) j0,
      (vecS2 vL n (numthread * vectorNumblock vL n) k j0 ∨
        vecS1 vL n (numthread * vectorNumblock vL n) k j0) →
      vectorCopyKernelThread din vL n numthread (vectorNumblock vL n)
        (k % numthread) (k / numthread) dout0 j0 = din j0 := by
    intro k dout0 j0 hS
    rw [vectorCopyKernelThread_apply din vL n hvL k dout0 j0]
    by_cases h2 : vecS2 vL n (numthread * vectorNumblock vL n) k j0
    · rw [if_pos h2]
    · rcases hS with h | h
      · exact absurd h h2
      · rw [if_neg h2, if_pos h]
  have hf2 : ∀ k (dout0 : ℕ → α) j0,
      ¬ (vecS2 vL n (numthread * vectorNumblock vL n) k j0 ∨
        vecS1 vL n (numthread * vectorNumblock vL n) k j0) →
      vectorCopyKernelThread din vL n numthread (vectorNumblock vL n)
        (k % numthread) (k / numthread) dout0 j0 = dout0 j0 := by
    intro k dout0 j0 hS
    push_neg at hS
    rw [vectorCopyKernelThread_apply din vL n hvL k dout0 j0, if_neg hS.1,
      if_neg hS.2]
  have hbase : (n / vL) * vL + n % vL = n := by
    have h := Nat.div_add_mod n vL
    have h2 : (n / vL) * vL = vL * (n / vL) := Nat.mul_comm _ _
    omega
  have hrem : n % vL < vL := Nat.mod_lt n hvL
  by_cases hj : j < n
  · rw [if_pos hj]
    apply runThreads_mem _ din
      (fun g j0 => vecS2 vL n (numthread * vectorNumblock vL n) g j0 ∨
        vecS1 vL n (numthread * vectorNumblock vL n) g j0) hf1 hf2
    by_cases hjb : j < (n / vL) * vL
    · refine ⟨(j / vL) % (numthread * vectorNumblock vL n),
        Nat.mod_lt _ htot, Or.inr ⟨Nat.mod_le _ _, ?_, ?_⟩⟩
      · exact (Nat.div_lt_iff_lt_mul hvL).mpr hjb
      · have h0 := Nat.div_add_mod (j / vL) (numthread * vectorNumblock vL n)
        have h1 : j / vL - (j / vL) % (numthread * vectorNumblock vL n) =
            numthread * vectorNumblock vL n *
              (j / vL / (numthread * vectorNumblock vL n)) := by omega
        rw [h1]
        exact Nat.mul_mod_right _ _
    · refine ⟨j - (n / vL) * vL, by omega, Or.inl ⟨by omega, hj, ?_⟩⟩
      have h1 : j - (j - (n / vL) * vL + (n / vL) * vL) = 0 := by omega
      rw [h1]
      exact Nat.zero_mod _
  · rw [if_neg hj]
    apply runThreads_not_mem _
      (fun g j0 => vecS2 vL n (numthread * vectorNumblock vL n) g j0 ∨
        vecS1 vL n (numthread * vectorNumblock vL n) g j0) hf2
    rintro k _ (⟨_, h2, _⟩ | ⟨_, h2, _⟩)
    · exact hj h2
    · have h3 : j < (n / vL) * vL := (Nat.div_lt_iff_lt_mul hvL).mp h2
      have h4 : (n / vL) * vL ≤ n := Nat.div_mul_le_self n vL
      omega

/-- a `float4_t` value read from wide word `w` of a float memory:
`a[i] = data_in[index + i*blockDim_x]` reads the four floats of the word. -/
def readWide4 {α : Type u} (mem : ℕ → α) (w : ℕ) : Fin 4 → α :=
  fun k => mem (4 * w + k.val)

/-- a `float4_t` store of value `v` to wide word `w` of a float memory:
`data_out[...] = a[i]` overwrites the four floats of the word. -/
def writeWide4 {α : Type u} (v : Fin 4 → α) (w : ℕ) (dout : ℕ → α) : ℕ → α :=
  fun j => if h : 4 * w ≤ j ∧ j < 4 * w + 4 then v ⟨j - 4 * w, by omega⟩
    else dout j

/-- load phase of `memcpyFloatKernel` (lines 149-152), slot `i`:
`if (index + i*blockDim_x < n) a[i] = data_in[index + i*blockDim_x]`.
A slot whose guard fails stays uninitialized (`none`): its wide word is never
read. -/
def mfLoadSlot {α : Type u} (nWide : ℕ) (din : ℕ → α) (index bdim i : ℕ) :
    Option (Fin 4 → α) :=
  if index + i * bdim < nWide then some (readWide4 din (index + i * bdim))
  else none

/-- store phase of `memcpyFloatKernel` (lines 153-156), iterating slots
`i, i+1, …` while `r` slots remain:
`if (index + i*blockDim_x < n) data_out[index + i*blockDim_x] = a[i]`.
A slot whose guard fails stores nothing. -/
def mfStoreLoop {α : Type u} (nWide : ℕ) (a : ℕ → Option (Fin 4 → α))
    (index bdim : ℕ) : ℕ → ℕ → (ℕ → α) → (ℕ → α)
  | 0, _, dout => dout
  | r + 1, i, dout =>
    mfStoreLoop nWide a index bdim r (i + 1)
      (if index + i * bdim < nWide then
        match a i with
        | some v => writeWide4 v (index + i * bdim) dout
        | none => dout
      else dout)

/-- one thread of `memcpyFloatKernel` (lines 146-157) over a float-element
memory: `index = threadIdx + numElem*blockIdx*blockDim`, then the two-phase
load/store over the `K = numElem` staging slots. -/
def memcpyFloatKernelThread {α : Type u} (din : ℕ → α) (K nWide bdim t b : ℕ)
    (dout : ℕ → α) : ℕ → α :=
  mfStoreLoop nWide (mfLoadSlot nWide din (t + K * b * bdim) bdim)
    (t + K * b * bdim) bdim K 0 dout

/-- full device effect of `memcpyFloat` (lines 180-208): the grid launched
with `mfNumblock n` blocks of `numthread` threads runs
`memcpyFloatKernel<NUM_ELEM = 2>` on `n/4` wide words. -/
def memcpyFloatRun {α : Type u} (n : ℕ) (din dout : ℕ → α) : ℕ → α :=
  runThreads
    (fun g => memcpyFloatKernelThread din 2 (n / 4) numthread
      (g % numthread) (g / numthread))
    (numthread * mfNumblock n) dout

/-- storing back a staged wide word reproduces the source on that word. -/
theorem writeWide4_readWide4 {α : Type u} (din dout : ℕ → α) (w j : ℕ) :
    writeWide4 (readWide4 din w) w dout j =
      if j / 4 = w then din j else dout j := by
  unfold writeWide4 readWide4
  by_cases h : 4 * w ≤ j ∧ j < 4 * w + 4
  · rw [dif_pos h, if_pos (by omega)]
    show din (4 * w + (j - 4 * w)) = din j
    congr 1
    omega
  · rw [dif_neg h, if_neg (by omega)]

/-- the effect of processing one store slot. -/
theorem mfStoreSlot_apply {α : Type u} (nWide : ℕ) (din : ℕ → α)
    (index bdim i : ℕ) (dout : ℕ → α) (j : ℕ) :
    (if index + i * bdim < nWide then
      match mfLoadSlot nWide din index bdim i with
      | some v => writeWide4 v (index + i * bdim) dout
      | none => dout
    else dout) j =
      if index + i * bdim < nWide ∧ j / 4 = index + i * bdim then din j
      else dout j := by
  by_cases hg : index + i * bdim < nWide
  · rw [if_pos hg]
    unfold mfLoadSlot
    rw [if_pos hg]
    simp only
    rw [writeWide4_readWide4 din dout (index + i * bdim) j]
    by_cases hj : j / 4 = index + i * bdim
    · rw [if_pos hj, if_pos ⟨hg, hj⟩]
    · rw [if_neg hj, if_neg (fun hc => hj hc.2)]
  · rw [if_neg hg, if_neg (fun hc => hg hc.1)]

/-- frame property of the store phase: an element whose wide word is hit by no
in-range, in-bounds slot is left unchanged. -/
theorem mfStoreLoop_frame {α : Type u} (nWide : ℕ) (din : ℕ → α)
    (index bdim : ℕ) :
    ∀ (r i : ℕ) (dout : ℕ → α) (j : ℕ),
      (∀ s, i ≤ s → s < i + r →
        ¬ (index + s * bdim < nWide ∧ j / 4 = index + s * bdim)) →
      mfStoreLoop nWide (mfLoadSlot nWide din index bdim) index bdim r i dout j
        = dout j := by
  intro r
  induction r with
  | zero => intro i dout j _; rfl
  | succ r ih =>
    intro i dout j hS
    simp only [mfStoreLoop]
    rw [ih (i + 1) _ j (fun s hs1 hs2 => hS s (by omega) (by omega))]
    rw [mfStoreSlot_apply nWide din index bdim i dout j]
    rw [if_neg (hS i (le_refl i) (by omega))]

/-- an element whose wide word is hit by some in-range, in-bounds slot ends up
holding its source value after the store phase. -/
theorem mfStoreLoop_mem {α : Type u} (nWide : ℕ) (din : ℕ → α)
    (index bdim : ℕ) :
    ∀ (r i : ℕ) (dout : ℕ → α) (j : ℕ),
      (∃ s, i ≤ s ∧ s < i + r ∧ index + s * bdim < nWide ∧
        j / 4 = index + s * bdim) →
      mfStoreLoop nWide (mfLoadSlot nWide din index bdim) index bdim r i dout j
        = din j := by
  intro r
  induction r with
  | zero =>
    rintro i dout j ⟨s, h1, h2, _, _⟩
    omega
  | succ r ih =>
    rintro i dout j ⟨s, h1, h2, h3, h4⟩
    simp only [mfStoreLoop]
    by_cases hs : ∃ s', i + 1 ≤ s' ∧ s' < i + 1 + r ∧
        index + s' * bdim < nWide ∧ j / 4 = index + s' * bdim
    · exact ih (i + 1) _ j hs
    · have hsi : s = i := by
        by_contra hne
        exact hs ⟨s, by omega, by omega, h3, h4⟩
      subst hsi
      rw [mfStoreLoop_frame nWide din index bdim r (s + 1) _ j
        (fun s' hs1 hs2 hc => hs ⟨s', hs1, by omega, hc.1, hc.2⟩)]
      rw [mfStoreSlot_apply nWide din index bdim s dout j, if_pos ⟨h3, h4⟩]

/-- footprint of one register-blocked thread: element `j` is covered when some
slot `s < K` has an in-bounds computed wide index equal to `j`'s wide index. -/
def mfS (K nWide bdim t b j : ℕ) : Prop :=
  ∃ s, s < K ∧ t + K * b * bdim + s * bdim < nWide ∧
    j / 4 = t + K * b * bdim + s * bdim

theorem memcpyFloatKernelThread_mem {α : Type u} (din : ℕ → α)
    (K nWide bdim t b : ℕ) (dout : ℕ → α) (j : ℕ)
    (h : mfS K nWide bdim t b j) :
    memcpyFloatKernelThread din K nWide bdim t b dout j = din j := by
  obtain ⟨s, h1, h2, h3⟩ := h
  exact mfStoreLoop_mem nWide din _ bdim K 0 dout j
    ⟨s, Nat.zero_le s, by omega, h2, h3⟩

theorem memcpyFloatKernelThread_frame {α : Type u} (din : ℕ → α)
    (K nWide bdim t b : ℕ) (dout : ℕ → α) (j : ℕ)
    (h : ¬ mfS K nWide bdim t b j) :
    memcpyFloatKernelThread din K nWide bdim t b dout j = dout j := by
  apply mfStoreLoop_frame nWide din _ bdim K 0 dout j
  intro s hs1 hs2 hc
  exact h ⟨s, by omega, hc.1, hc.2⟩

/-- full pointwise characterization of `memcpyFloat`: with the launch geometry
it computes, exactly the elements whose wide index is both within the `n/4`
wide words handed to the kernel and within reach of the launched grid
(`2 * numthread * mfNumblock n` wide indices) receive their source values;
every other element is unchanged. -/
theorem memcpyFloatRun_apply {α : Type u} (n : ℕ) (din dout : ℕ → α) (j : ℕ) :
    memcpyFloatRun n din dout j =
      if j / 4 < n / 4 ∧ j / 4 < 2 * numthread * mfNumblock n then din j
      else dout j := by
  have hf1 : ∀ k (dout0 : ℕ → α) j0,
      mfS 2 (n / 4) numthread (k % numthread) (k / numthread) j0 →
      memcpyFloatKernelThread din 2 (n / 4) numthread (k % numthread)
        (k / numthread) dout0 j0 = din j0 :=
    fun k dout0 j0 h => memcpyFloatKernelThread_mem din 2 (n / 4) numthread
      (k % numthread) (k / numthread) dout0 j0 h
  have hf2 : ∀ k (dout0 : ℕ → α) j0,
      ¬ mfS 2 (n / 4) numthread (k % numthread) (k / numthread) j0 →
      memcpyFloatKernelThread din 2 (n / 4) numthread (k % numthread)
        (k / numthread) dout0 j0 = dout0 j0 :=
    fun k dout0 j0 h => memcpyFloatKernelThread_frame din 2 (n / 4) numthread
      (k % numthread) (k / numthread) dout0 j0 h
  by_cases hj : j / 4 < n / 4 ∧ j / 4 < 2 * numthread * mfNumblock n
  · rw [if_pos hj]
    apply runThreads_mem _ din
      (fun g j0 => mfS 2 (n / 4) numthread (g % numthread) (g / numthread) j0)
      hf1 hf2
    obtain ⟨hj1, hj2⟩ := hj
    simp only [numthread] at hj2 ⊢
    refine ⟨(j / 4 % 128) % 64 + 64 * (j / 4 / 128), by omega,
      (j / 4 % 128) / 64, by omega, ?_, ?_⟩
    · unfold mfS at *
      omega
    · omega
  · rw [if_neg hj]
    apply runThreads_not_mem _
      (fun g j0 => mfS 2 (n / 4) numthread (g % numthread) (g / numthread) j0)
      hf2
    rintro k hk ⟨s, hs1, hs2, hs3⟩
    simp only [numthread] at hk hs2 hs3
    apply hj
    simp only [numthread]
    omega

/-- wide indices written by one register-blocked thread: slot `i` contributes
its computed index `index + i*blockDim` exactly when the bounds guard passes. -/
def mfThreadWrites (K nWide t b bdim : ℕ) : List ℕ :=
  (List.range K).filterMap fun i =>
    if t + K * b * bdim + i * bdim < nWide then
      some (t + K * b * bdim + i * bdim)
    else none

theorem mfThreadWrites_mem (K nWide t b bdim w : ℕ) :
    w ∈ mfThreadWrites K nWide t b bdim ↔
      ∃ i, i < K ∧ t + K * b * bdim + i * bdim < nWide ∧
        w = t + K * b * bdim + i * bdim := by
  simp only [mfThreadWrites, List.mem_filterMap, List.mem_range]
  constructor
  · rintro ⟨i, hi, hw⟩
    by_cases hg : t + K * b * bdim + i * bdim < nWide
    · rw [if_pos hg] at hw
      exact ⟨i, hi, hg, (Option.some_inj.mp hw).symm⟩
    · rw [if_neg hg] at hw
      simp at hw
  · rintro ⟨i, hi, hg, hw⟩
    exact ⟨i, hi, by rw [if_pos hg, hw]⟩

/-- total number of times wide index `w` is written across all threads of the
grid launched by `memcpyFloat` for a count of `n` floats. -/
def mfGridWriteCount (n w : ℕ) : ℕ :=
  ((List.range (numthread * mfNumblock n)).map fun g =>
    (mfThreadWrites 2 (n / 4) (g % numthread) (g / numthread) numthread).count w).sum

/-- C10: `memcpyFloat` operates on exactly `n/4` wide words: no thread ever
writes a wide index `≥ n/4`, and every destination float at index
`≥ 4*(n/4)` — in particular the trailing `n mod 4` floats — keeps its
pre-call value. -/
theorem memcpyFloat_frame (n : ℕ) (din dout : ℕ → ℤ) :
    (∀ w, n / 4 ≤ w → mfGridWriteCount n w = 0)
    ∧ (∀ j, 4 * (n / 4) ≤ j → memcpyFloatRun n din dout j = dout j) := by
  constructor
  · intro w hw
    apply List.sum_eq_zero
    intro x hx
    rw [List.mem_map] at hx
    obtain ⟨g, _, hg⟩ := hx
    rw [← hg]
    rw [List.count_eq_zero]
    intro hmem
    rw [mfThreadWrites_mem] at hmem
    obtain ⟨i, _, hlt, hwi⟩ := hmem
    omega
  · intro j hj
    rw [memcpyFloatRun_apply n din dout j, if_neg ?_]
    rintro ⟨h1, _⟩
    omega

/-- witness for `memcpyFloat_frame` at `n = 7`, `w = 5`, `j = 6`. -/
theorem memcpyFloat_frame_witness :
    (7 / 4 ≤ 5 ∧ mfGridWriteCount 7 5 = 0)
    ∧ (4 * (7 / 4) ≤ 6 ∧
        memcpyFloatRun 7 (fun k => (k : ℤ)) (fun _ => 0) 6 = 0) :=
  ⟨⟨by decide, (memcpyFloat_frame 7 (fun k => (k : ℤ)) (fun _ => 0)).1 5 (by decide)⟩,
    ⟨by decide, (memcpyFloat_frame 7 (fun k => (k : ℤ)) (fun _ => 0)).2 6 (by decide)⟩⟩

/-- C4 evaluation: at `blockDim = numthread = 64`, `gridDim = 1`,
`threadIdx = 1`, the phase-2 stride written in the source is
`blockDim*gridDim + threadIdx = 65`, which differs from the total thread
count `blockDim*gridDim = 64` claimed for it. -/
theorem vectorPhase2Stride_neq_total :
    vectorPhase2Stride numthread 1 1 = 65 ∧ numthread * 1 = 64 := by
  decide

/-- C1 (amended): the scalar and vector strategies copy `source[i]` to
`destination[i]` for every `i < N` and leave every other destination element
unchanged.  `memcpyFloat` does so exactly for the elements whose wide index
`i/4` is below both `N/4` and the grid reach `2*numthread*mfNumblock N`; all
other destination elements (the trailing `N mod 4` floats, and the last wide
word when `N ≡ 4 [MOD 8]` with `N/8` a positive multiple of `numthread`) are
left unchanged. -/
theorem copy_strategies_pointwise :
    (∀ (n : ℕ) (din dout : ℕ → ℤ) (j : ℕ),
      scalarCopyRun n din dout j = if j < n then din j else dout j)
    ∧ (∀ (vL n : ℕ), 0 < vL → vL ≤ numthread →
        ∀ (din dout : ℕ → ℤ) (j : ℕ),
          vectorCopyRun vL n din dout j = if j < n then din j else dout j)
    ∧ (∀ (n : ℕ) (din dout : ℕ → ℤ) (j : ℕ),
        memcpyFloatRun n din dout j =
          if j / 4 < n / 4 ∧ j / 4 < 2 * numthread * mfNumblock n then din j
          else dout j) :=
  ⟨fun n din dout j => scalarCopyRun_apply n din dout j,
    fun vL n h1 h2 din dout j => vectorCopyRun_apply vL n h1 h2 din dout j,
    fun n din dout j => memcpyFloatRun_apply n din dout j⟩

/-- witness for `copy_strategies_pointwise`: the vector strategy with
`vL = 4`, `n = 5` copies element 2. -/
theorem copy_strategies_pointwise_witness :
    ((0 : ℕ) < 4 ∧ (4 : ℕ) ≤ numthread)
    ∧ vectorCopyRun 4 5 (fun k => (k : ℤ)) (fun _ => 0) 2 = 2 := by
  refine ⟨⟨by decide, by decide⟩, ?_⟩
  have h := copy_strategies_pointwise.2.1 4 5 (by decide) (by decide)
    (fun k => (k : ℤ)) (fun _ => 0) 2
  simpa using h

/-- C1 counterexample: for `N = 1` float, index `0` lies in `[0, N)` and the
buffers are trivially aligned and non-overlapping, yet `memcpyFloat` copies
nothing (the kernel is handed `1/4 = 0` wide words), so the destination still
holds its old value `0 ≠ 1` afterwards. -/
theorem memcpyFloat_misses_inbounds_index :
    (0 : ℕ) < 1 ∧
      memcpyFloatRun 1 (fun _ => (1 : ℤ)) (fun _ => (0 : ℤ)) 0 = 0 := by
  refine ⟨by decide, ?_⟩
  rw [memcpyFloatRun_apply]
  norm_num

/-- C5: for any `N` that is not a multiple of the wide width, every straggler
element beyond the last full wide word is still copied by the vector
strategy (despite the phase-2 stride anomaly recorded in
`vectorPhase2Stride`). -/
theorem vectorCopy_stragglers_copied (vL n : ℕ) (hvL : 0 < vL)
    (hvL64 : vL ≤ numthread) (_hrem : n % vL ≠ 0) (din dout : ℕ → ℤ) (j : ℕ)
    (_hlo : (n / vL) * vL ≤ j) (hhi : j < n) :
    vectorCopyRun vL n din dout j = din j := by
  rw [vectorCopyRun_apply vL n hvL hvL64 din dout j, if_pos hhi]

/-- witness for `vectorCopy_stragglers_copied` at `vL = 4`, `n = 6`,
`j = 5`. -/
theorem vectorCopy_stragglers_copied_witness :
    ((0 : ℕ) < 4 ∧ (4 : ℕ) ≤ numthread ∧ 6 % 4 ≠ 0 ∧ (6 / 4) * 4 ≤ 5 ∧ 5 < 6)
    ∧ vectorCopyRun 4 6 (fun k => (k : ℤ)) (fun _ => 0) 5 = 5 := by
  refine ⟨⟨by decide, by decide, by decide, by decide, by decide⟩, ?_⟩
  have h := vectorCopy_stragglers_copied 4 6 (by decide) (by decide) (by decide)
    (fun k => (k : ℤ)) (fun _ => 0) 5 (by decide) (by decide)
  simpa using h

/-- C3: in the register-blocked kernel, a staging slot whose computed index
`index + i*blockDim` falls outside `[0, n)` performs neither its load (the
slot stays uninitialized) nor its store (the index is absent from the
thread's write footprint, and the thread leaves every element outside its
footprint unchanged); a slot whose computed index is within bounds copies
all four floats of its wide word from source to destination. -/
theorem memcpyFloatKernel_slot_bounds (nWide t b i : ℕ) (hi : i < 2)
    (_hN : nWide % (2 * numthread) ≠ 0) (din dout : ℕ → ℤ) :
    (nWide ≤ t + 2 * b * numthread + i * numthread →
      mfLoadSlot nWide din (t + 2 * b * numthread) numthread i = none
      ∧ t + 2 * b * numthread + i * numthread ∉
          mfThreadWrites 2 nWide t b numthread)
    ∧ (∀ j, j / 4 ∉ mfThreadWrites 2 nWide t b numthread →
        memcpyFloatKernelThread din 2 nWide numthread t b dout j = dout j)
    ∧ (t + 2 * b * numthread + i * numthread < nWide →
        ∀ k, k < 4 →
          memcpyFloatKernelThread din 2 nWide numthread t b dout
              (4 * (t + 2 * b * numthread + i * numthread) + k)
            = din (4 * (t + 2 * b * numthread + i * numthread) + k)) := by
  refine ⟨?_, ?_, ?_⟩
  · intro hout
    constructor
    · unfold mfLoadSlot
      rw [if_neg (by omega)]
    · intro hmem
      rw [mfThreadWrites_mem] at hmem
      obtain ⟨i2, _, hlt, heq⟩ := hmem
      omega
  · intro j hmem
    apply memcpyFloatKernelThread_frame
    rintro ⟨s, hs1, hs2, hs3⟩
    exact hmem ((mfThreadWrites_mem 2 nWide t b numthread (j / 4)).mpr
      ⟨s, hs1, hs2, hs3⟩)
  · intro hin k hk
    apply memcpyFloatKernelThread_mem
    exact ⟨i, hi, hin, by omega⟩

/-- witness for `memcpyFloatKernel_slot_bounds` at `nWide = 5`, `t = 0`,
`b = 0`, `i = 1`: slot 1's computed index `64` is out of bounds, so its load
is skipped. -/
theorem memcpyFloatKernel_slot_bounds_witness :
    ((1 : ℕ) < 2 ∧ (5 : ℕ) % (2 * numthread) ≠ 0)
    ∧ mfLoadSlot 5 (fun k => (k : ℤ)) (0 + 2 * 0 * numthread) numthread 1
        = none :=
  ⟨⟨by decide, by decide⟩,
    ((memcpyFloatKernel_slot_bounds 5 0 0 1 (by decide) (by decide)
      (fun k => (k : ℤ)) (fun _ => 0)).1 (by decide)).1⟩

/-- the three mutually exclusive compile-time backends of the source
(`#if SYCL … #elif HIP … #else // CUDA`). -/
inductive Backend where
  | sycl
  | hip
  | cuda
deriving DecidableEq

/-- host-side effects a dispatch entry point can perform on its stream. -/
inductive GpuEffect where
  | enqueueKernel
  | checkLastError
  | streamSynchronize
deriving DecidableEq

/-- host-side effect sequence of `scalarCopy` (lines 60-76): SYCL enqueues via
`parallel_for` and returns; HIP and CUDA enqueue and then check
`hip/cudaGetLastError`. -/
def scalarCopyEffects : Backend → List GpuEffect
  | .sycl => [.enqueueKernel]
  | .hip => [.enqueueKernel, .checkLastError]
  | .cuda => [.enqueueKernel, .checkLastError]

/-- host-side effect sequence of `vectorCopy` (lines 116-132). -/
def vectorCopyEffects : Backend → List GpuEffect
  | .sycl => [.enqueueKernel]
  | .hip => [.enqueueKernel, .checkLastError]
  | .cuda => [.enqueueKernel, .checkLastError]

/-- host-side effect sequence of `memcpyFloat` (lines 185-207). -/
def memcpyFloatEffects : Backend → List GpuEffect
  | .sycl => [.enqueueKernel]
  | .hip => [.enqueueKernel, .checkLastError]
  | .cuda => [.enqueueKernel, .checkLastError]

/-- fatal-error semantics of the `hipCheck`/`cudaCheck` wrappers: running an
effect list after a failed enqueue surfaces a fatal error exactly when some
`checkLastError` effect observes the sticky error flag. -/
def raisesFatal (enqueueFailed : Bool) (l : List GpuEffect) : Bool :=
  enqueueFailed && decide (GpuEffect.checkLastError ∈ l)

/-- C7 (amended): on the HIP and CUDA backends every entry point enqueues the
kernel and immediately checks the last-error flag, surfacing a fatal error
exactly when the enqueue failed; no entry point ever synchronizes with the
stream (fire-and-forget).  On the SYCL backend, however, every entry point
returns right after the enqueue with no error-flag check at all, so a failed
enqueue is never surfaced there. -/
theorem dispatch_effect_traces :
    scalarCopyEffects .hip = [.enqueueKernel, .checkLastError]
    ∧ scalarCopyEffects .cuda = [.enqueueKernel, .checkLastError]
    ∧ scalarCopyEffects .sycl = [.enqueueKernel]
    ∧ vectorCopyEffects .hip = [.enqueueKernel, .checkLastError]
    ∧ vectorCopyEffects .cuda = [.enqueueKernel, .checkLastError]
    ∧ vectorCopyEffects .sycl = [.enqueueKernel]
    ∧ memcpyFloatEffects .hip = [.enqueueKernel, .checkLastError]
    ∧ memcpyFloatEffects .cuda = [.enqueueKernel, .checkLastError]
    ∧ memcpyFloatEffects .sycl = [.enqueueKernel]
    ∧ raisesFatal true (scalarCopyEffects .hip) = true
    ∧ raisesFatal true (scalarCopyEffects .cuda) = true
    ∧ raisesFatal false (scalarCopyEffects .hip) = false
    ∧ raisesFatal false (scalarCopyEffects .cuda) = false
    ∧ raisesFatal true (vectorCopyEffects .hip) = true
    ∧ raisesFatal true (vectorCopyEffects .cuda) = true
    ∧ raisesFatal false (vectorCopyEffects .hip) = false
    ∧ raisesFatal false (vectorCopyEffects .cuda) = false
    ∧ raisesFatal true (memcpyFloatEffects .hip) = true
    ∧ raisesFatal true (memcpyFloatEffects .cuda) = true
    ∧ raisesFatal false (memcpyFloatEffects .hip) = false
    ∧ raisesFatal false (memcpyFloatEffects .cuda) = false
    ∧ (scalarCopyEffects .sycl).count .streamSynchronize = 0
    ∧ (scalarCopyEffects .hip).count .streamSynchronize = 0
    ∧ (scalarCopyEffects .cuda).count .streamSynchronize = 0
    ∧ (vectorCopyEffects .sycl).count .streamSynchronize = 0
    ∧ (vectorCopyEffects .hip).count .streamSynchronize = 0
    ∧ (vectorCopyEffects .cuda).count .streamSynchronize = 0
    ∧ (memcpyFloatEffects .sycl).count .streamSynchronize = 0
    ∧ (memcpyFloatEffects .hip).count .streamSynchronize = 0
    ∧ (memcpyFloatEffects .cuda).count .streamSynchronize = 0 := by
  decide

/-- C7 counterexample: the SYCL build of `scalarCopy` performs no error-flag
check after its enqueue, so a failed enqueue surfaces no fatal error,
contradicting the claim for the active SYCL backend. -/
theorem sycl_no_error_check :
    (scalarCopyEffects .sycl).count .checkLastError = 0
    ∧ raisesFatal true (scalarCopyEffects .sycl) = false := by
  decide

/-- indices written (in order) by a grid-stride element copy loop: the trace
counterpart of `copyLoop`. -/
def copyLoopWrites (n stride : ℕ) : ℕ → ℕ → List ℕ
  | 0, _ => []
  | fuel + 1, i =>
    if i < n then i :: copyLoopWrites n stride fuel (i + stride) else []

/-- element indices covered by a list of wide-word stores: wide word `w`
contributes the `vL` elements `vL*w, …, vL*w + vL - 1`. -/
def wideElems (vL : ℕ) : List ℕ → List ℕ
  | [] => []
  | w :: l => (List.range vL).map (fun k => vL * w + k) ++ wideElems vL l

/-- element indices written by one `scalarCopyKernel` thread of global id
`g`. -/
def scalarThreadWrites (n total g : ℕ) : List ℕ := copyLoopWrites n total n g

/-- element indices written by one `vectorCopyKernel` thread of global id
`g`: the wide words of phase 1 followed by the remainder elements of
phase 2 (with phase 2's source stride `total + threadIdx`). -/
def vectorThreadWrites (vL n total g : ℕ) : List ℕ :=
  wideElems vL (copyLoopWrites (n / vL) total (n / vL) g)
    ++ copyLoopWrites n (total + g % numthread) n (g + (n / vL) * vL)

/-- C8: for `N = 0` every entry point computes one block, the launched kernel
performs no iteration (every thread's write trace is empty), and the whole
destination is unchanged. -/
theorem zero_count_noop (din dout : ℕ → ℤ) (j g : ℕ) :
    scalarNumblock 0 = 1 ∧ vectorNumblock 4 0 = 1 ∧ vectorNumblock 2 0 = 1
    ∧ mfNumblock 0 = 1
    ∧ scalarCopyRun 0 din dout j = dout j
    ∧ vectorCopyRun 4 0 din dout j = dout j
    ∧ vectorCopyRun 2 0 din dout j = dout j
    ∧ memcpyFloatRun 0 din dout j = dout j
    ∧ scalarThreadWrites 0 (numthread * scalarNumblock 0) g = []
    ∧ vectorThreadWrites 4 0 (numthread * vectorNumblock 4 0) g = []
    ∧ mfThreadWrites 2 (0 / 4) (g % numthread) (g / numthread) numthread = [] := by
  refine ⟨by decide, by decide, by decide, by decide, ?_, ?_, ?_, ?_, rfl, rfl, ?_⟩
  · rw [scalarCopyRun_apply]
    simp
  · rw [vectorCopyRun_apply 4 0 (by decide) (by decide)]
    simp
  · rw [vectorCopyRun_apply 2 0 (by decide) (by decide)]
    simp
  · rw [memcpyFloatRun_apply]
    simp
  · unfold mfThreadWrites
    apply List.filterMap_eq_nil_iff.mpr
    intro a _
    rw [if_neg (by omega)]

theorem copyLoopWrites_ge (n stride : ℕ) :
    ∀ (fuel i x : ℕ), x ∈ copyLoopWrites n stride fuel i → i ≤ x := by
  intro fuel
  induction fuel with
  | zero =>
    intro i x hx
    simp [copyLoopWrites] at hx
  | succ fuel ih =>
    intro i x hx
    simp only [copyLoopWrites] at hx
    by_cases hi : i < n
    · rw [if_pos hi, List.mem_cons] at hx
      rcases hx with h | h
      · omega
      · have := ih (i + stride) x h
        omega
    · rw [if_neg hi] at hx
      simp at hx

theorem copyLoopWrites_nodup (n stride : ℕ) (hs : 0 < stride) :
    ∀ (fuel i : ℕ), (copyLoopWrites n stride fuel i).Nodup := by
  intro fuel
  induction fuel with
  | zero => intro i; simp [copyLoopWrites]
  | succ fuel ih =>
    intro i
    simp only [copyLoopWrites]
    by_cases hi : i < n
    · rw [if_pos hi, List.nodup_cons]
      refine ⟨fun hmem => ?_, ih (i + stride)⟩
      have := copyLoopWrites_ge n stride fuel (i + stride) i hmem
      omega
    · rw [if_neg hi]
      simp

theorem copyLoopWrites_mem (n stride : ℕ) (hs : 0 < stride) :
    ∀ (fuel i j : ℕ), n ≤ fuel + i →
      (j ∈ copyLoopWrites n stride fuel i ↔
        i ≤ j ∧ j < n ∧ (j - i) % stride = 0) := by
  intro fuel
  induction fuel with
  | zero =>
    intro i j hfi
    simp only [copyLoopWrites, List.not_mem_nil, false_iff]
    rintro ⟨h1, h2, _⟩
    omega
  | succ fuel ih =>
    intro i j hfi
    simp only [copyLoopWrites]
    by_cases hi : i < n
    · rw [if_pos hi, List.mem_cons, ih (i + stride) j (by omega)]
      constructor
      · rintro (h | ⟨h1, h2, h3⟩)
        · subst h
          exact ⟨le_refl j, hi, by simp⟩
        · have hne : j ≠ i := by omega
          have := (stride_cond_shift stride i j hs hne).mp ⟨h1, h3⟩
          exact ⟨this.1, h2, this.2⟩
      · rintro ⟨h1, h2, h3⟩
        by_cases hji : j = i
        · exact Or.inl hji
        · have := (stride_cond_shift stride i j hs hji).mpr ⟨h1, h3⟩
          exact Or.inr ⟨this.1, h2, this.2⟩
    · rw [if_neg hi]
      simp only [List.not_mem_nil, false_iff]
      rintro ⟨h1, h2, _⟩
      omega

theorem wideElems_mem (vL : ℕ) (hvL : 0 < vL) (j : ℕ) :
    ∀ l : List ℕ, j ∈ wideElems vL l ↔ j / vL ∈ l := by
  intro l
  induction l with
  | nil => simp [wideElems]
  | cons w l ih =>
    simp only [wideElems, List.mem_append, List.mem_cons, ih, List.mem_map,
      List.mem_range]
    constructor
    · rintro (⟨k, hk, hkj⟩ | h)
      · left
        rw [← hkj, Nat.mul_add_div hvL, Nat.div_eq_of_lt hk, Nat.add_zero]
      · exact Or.inr h
    · rintro (h | h)
      · left
        have hw := (div_eq_iff_interval vL w j hvL).mp h
        have hx : vL * (w + 1) = vL * w + vL := by ring
        exact ⟨j - vL * w, by omega, by omega⟩
      · exact Or.inr h

theorem wideElems_nodup (vL : ℕ) (hvL : 0 < vL) :
    ∀ l : List ℕ, l.Nodup → (wideElems vL l).Nodup := by
  intro l
  induction l with
  | nil => intro _; simp [wideElems]
  | cons w l ih =>
    intro hnd
    rw [List.nodup_cons] at hnd
    simp only [wideElems]
    apply List.Nodup.append
    · exact List.Nodup.map (fun a b hab => by omega) (List.nodup_range vL)
    · exact ih hnd.2
    · rw [List.disjoint_left]
      intro x hx hx2
      rw [List.mem_map] at hx
      obtain ⟨k, hk, hkx⟩ := hx
      rw [List.mem_range] at hk
      have hxw : x / vL = w := by
        rw [← hkx, Nat.mul_add_div hvL, Nat.div_eq_of_lt hk, Nat.add_zero]
      rw [wideElems_mem vL hvL x l, hxw] at hx2
      exact hnd.1 hx2

/-- a nodup list counts any of its members exactly once. -/
theorem count_eq_one_of_nodup_mem {l : List ℕ} {j : ℕ} (hd : l.Nodup)
    (h : j ∈ l) : l.count j = 1 := by
  have h1 := List.nodup_iff_count_le_one.mp hd j
  have h2 : 0 < l.count j := List.count_pos_iff.mpr h
  omega

theorem sum_map_range_zero (f : ℕ → ℕ) (K : ℕ) (h : ∀ g, g < K → f g = 0) :
    ((List.range K).map f).sum = 0 := by
  apply List.sum_eq_zero
  intro x hx
  rw [List.mem_map] at hx
  obtain ⟨g, hg, hgx⟩ := hx
  rw [List.mem_range] at hg
  rw [← hgx]
  exact h g hg

theorem sum_map_range_one (f : ℕ → ℕ) :
    ∀ (K g0 : ℕ), g0 < K → f g0 = 1 → (∀ g, g < K → g ≠ g0 → f g = 0) →
      ((List.range K).map f).sum = 1 := by
  intro K
  induction K with
  | zero => intro g0 hg0; omega
  | succ K ih =>
    intro g0 hg0 h1 h0
    rw [List.range_succ, List.map_append, List.sum_append]
    simp only [List.map_cons, List.map_nil, List.sum_cons, List.sum_nil]
    by_cases hK : g0 = K
    · subst hK
      rw [h1, sum_map_range_zero f g0 (fun g hg => h0 g (by omega) (by omega))]
      omega
    · rw [h0 K (by omega) (fun hc => hK hc.symm),
        ih g0 (by omega) h1 (fun g hg hne => h0 g (by omega) hne)]
      omega

/-- total number of times element index `j` is written across all threads of
the grid launched by `scalarCopy` for `n` elements. -/
def scalarGridWriteCount (n j : ℕ) : ℕ :=
  ((List.range (numthread * scalarNumblock n)).map fun g =>
    (scalarThreadWrites n (numthread * scalarNumblock n) g).count j).sum

/-- total number of times element index `j` is written across all threads of
the grid launched by `vectorCopy` for `n` elements of wide width `vL`. -/
def vectorGridWriteCount (vL n j : ℕ) : ℕ :=
  ((List.range (numthread * vectorNumblock vL n)).map fun g =>
    (vectorThreadWrites vL n (numthread * vectorNumblock vL n) g).count j).sum

theorem scalarGridWriteCount_eq (n j : ℕ) :
    scalarGridWriteCount n j = if j < n then 1 else 0 := by
  have htot : 0 < numthread * scalarNumblock n :=
    Nat.mul_pos (by decide) (scalarNumblock_pos n)
  have hmem : ∀ g, j ∈ scalarThreadWrites n (numthread * scalarNumblock n) g ↔
      g ≤ j ∧ j < n ∧ (j - g) % (numthread * scalarNumblock n) = 0 :=
    fun g => copyLoopWrites_mem n _ htot n g j (Nat.le_add_right n g)
  have hnd : ∀ g, (scalarThreadWrites n (numthread * scalarNumblock n) g).Nodup :=
    fun g => copyLoopWrites_nodup n _ htot n g
  unfold scalarGridWriteCount
  by_cases hj : j < n
  · rw [if_pos hj]
    apply sum_map_range_one _ _ (j % (numthread * scalarNumblock n))
      (Nat.mod_lt j htot)
    · apply count_eq_one_of_nodup_mem (hnd _)
      rw [hmem]
      refine ⟨Nat.mod_le j _, hj, ?_⟩
      have h0 := Nat.div_add_mod j (numthread * scalarNumblock n)
      have h1 : j - j % (numthread * scalarNumblock n) =
          numthread * scalarNumblock n * (j / (numthread * scalarNumblock n)) := by
        omega
      rw [h1]
      exact Nat.mul_mod_right _ _
    · intro g hg hne
      rw [List.count_eq_zero]
      intro hm
      rw [hmem] at hm
      obtain ⟨h1, h2, h3⟩ := hm
      obtain ⟨m, hm2⟩ := Nat.dvd_of_mod_eq_zero h3
      have he : j = g + numthread * scalarNumblock n * m := by omega
      have he2 : j % (numthread * scalarNumblock n) = g := by
        rw [he, Nat.add_mul_mod_self_left]
        exact Nat.mod_eq_of_lt hg
      exact hne he2.symm
  · rw [if_neg hj]
    apply sum_map_range_zero
    intro g hg
    rw [List.count_eq_zero]
    intro hm
    rw [hmem] at hm
    exact hj hm.2.1

theorem vectorGridWriteCount_eq (vL n j : ℕ) (hvL : 0 < vL)
    (hvL64 : vL ≤ numthread) :
    vectorGridWriteCount vL n j = if j < n then 1 else 0 := by
  have htot : 0 < numthread * vectorNumblock vL n :=
    Nat.mul_pos (by decide) (vectorNumblock_pos vL n)
  have htot64 : numthread ≤ numthread * vectorNumblock vL n := by
    have h := Nat.mul_le_mul_left numthread (vectorNumblock_pos vL n)
    simpa using h
  have hbase : (n / vL) * vL + n % vL = n := by
    have h := Nat.div_add_mod n vL
    have h2 : (n / vL) * vL = vL * (n / vL) := Nat.mul_comm _ _
    omega
  have hrem : n % vL < vL := Nat.mod_lt n hvL
  have hm1 : ∀ g x, x ∈ wideElems vL
      (copyLoopWrites (n / vL) (numthread * vectorNumblock vL n) (n / vL) g) ↔
      g ≤ x / vL ∧ x / vL < n / vL ∧
        (x / vL - g) % (numthread * vectorNumblock vL n) = 0 := by
    intro g x
    rw [wideElems_mem vL hvL x]
    exact copyLoopWrites_mem (n / vL) _ htot (n / vL) g (x / vL)
      (Nat.le_add_right _ g)
  have hm2 : ∀ g x, x ∈ copyLoopWrites n
      (numthread * vectorNumblock vL n + g % numthread) n
      (g + (n / vL) * vL) ↔
      g + (n / vL) * vL ≤ x ∧ x < n ∧
        (x - (g + (n / vL) * vL)) %
          (numthread * vectorNumblock vL n + g % numthread) = 0 :=
    fun g x => copyLoopWrites_mem n _ (by omega) n (g + (n / vL) * vL) x
      (Nat.le_add_right n _)
  have hnd1 : ∀ g, (wideElems vL
      (copyLoopWrites (n / vL) (numthread * vectorNumblock vL n) (n / vL) g)).Nodup :=
    fun g => wideElems_nodup vL hvL _ (copyLoopWrites_nodup (n / vL) _ htot _ g)
  have hnd2 : ∀ g, (copyLoopWrites n
      (numthread * vectorNumblock vL n + g % numthread) n
      (g + (n / vL) * vL)).Nodup :=
    fun g => copyLoopWrites_nodup n _ (by omega) n _
  have hcount : ∀ g, (vectorThreadWrites vL n (numthread * vectorNumblock vL n) g).count j =
      (wideElems vL
        (copyLoopWrites (n / vL) (numthread * vectorNumblock vL n) (n / vL) g)).count j
      + (copyLoopWrites n (numthread * vectorNumblock vL n + g % numthread) n
        (g + (n / vL) * vL)).count j :=
    fun g => List.count_append j _ _
  unfold vectorGridWriteCount
  by_cases hj : j < n
  · rw [if_pos hj]
    by_cases hjb : j < (n / vL) * vL
    · have hjw : j / vL < n / vL := (Nat.div_lt_iff_lt_mul hvL).mpr hjb
      apply sum_map_range_one _ _ ((j / vL) % (numthread * vectorNumblock vL n))
        (Nat.mod_lt _ htot)
      · rw [hcount]
        have hc2 : (copyLoopWrites n
            (numthread * vectorNumblock vL n +
              (j / vL) % (numthread * vectorNumblock vL n) % numthread) n
            ((j / vL) % (numthread * vectorNumblock vL n) + (n / vL) * vL)).count j
            = 0 := by
          rw [List.count_eq_zero]
          intro hm
          rw [hm2] at hm
          omega
        rw [hc2, Nat.add_zero]
        apply count_eq_one_of_nodup_mem (hnd1 _)
        rw [hm1]
        refine ⟨Nat.mod_le _ _, hjw, ?_⟩
        have h0 := Nat.div_add_mod (j / vL) (numthread * vectorNumblock vL n)
        have h1 : j / vL - (j / vL) % (numthread * vectorNumblock vL n) =
            numthread * vectorNumblock vL n *
              (j / vL / (numthread * vectorNumblock vL n)) := by omega
        rw [h1]
        exact Nat.mul_mod_right _ _
      · intro g hg hne
        rw [hcount]
        have hc2 : (copyLoopWrites n
            (numthread * vectorNumblock vL n + g % numthread) n
            (g + (n / vL) * vL)).count j = 0 := by
          rw [List.count_eq_zero]
          intro hm
          rw [hm2] at hm
          omega
        have hc1 : (wideElems vL
            (copyLoopWrites (n / vL) (numthread * vectorNumblock vL n)
              (n / vL) g)).count j = 0 := by
          rw [List.count_eq_zero]
          intro hm
          rw [hm1] at hm
          obtain ⟨h1, h2, h3⟩ := hm
          obtain ⟨m, hm2x⟩ := Nat.dvd_of_mod_eq_zero h3
          have he : j / vL = g + numthread * vectorNumblock vL n * m := by omega
          have he2 : (j / vL) % (numthread * vectorNumblock vL n) = g := by
            rw [he, Nat.add_mul_mod_self_left]
            exact Nat.mod_eq_of_lt hg
          exact hne he2.symm
        rw [hc1, hc2]
    · have hg0 : j - (n / vL) * vL < vL := by omega
      apply sum_map_range_one _ _ (j - (n / vL) * vL) (by omega)
      · rw [hcount]
        have hc1 : (wideElems vL
            (copyLoopWrites (n / vL) (numthread * vectorNumblock vL n) (n / vL)
              (j - (n / vL) * vL))).count j = 0 := by
          rw [List.count_eq_zero]
          intro hm
          rw [hm1] at hm
          have := (Nat.div_lt_iff_lt_mul hvL).mp hm.2.1
          omega
        rw [hc1, Nat.zero_add]
        apply count_eq_one_of_nodup_mem (hnd2 _)
        rw [hm2]
        refine ⟨by omega, hj, ?_⟩
        have he : j - (j - (n / vL) * vL + (n / vL) * vL) = 0 := by omega
        rw [he]
        exact Nat.zero_mod _
      · intro g hg hne
        rw [hcount]
        have hc1 : (wideElems vL
            (copyLoopWrites (n / vL) (numthread * vectorNumblock vL n)
              (n / vL) g)).count j = 0 := by
          rw [List.count_eq_zero]
          intro hm
          rw [hm1] at hm
          have := (Nat.div_lt_iff_lt_mul hvL).mp hm.2.1
          omega
        have hc2 : (copyLoopWrites n
            (numthread * vectorNumblock vL n + g % numthread) n
            (g + (n / vL) * vL)).count j = 0 := by
          rw [List.count_eq_zero]
          intro hm
          rw [hm2] at hm
          obtain ⟨h1, h2, h3⟩ := hm
          have hglt : g < numthread := by
            simp only [numthread] at hvL64 ⊢
            omega
          have hgmod : g % numthread = g := Nat.mod_eq_of_lt hglt
          rw [hgmod] at h3
          have hv : j - (g + (n / vL) * vL) <
              numthread * vectorNumblock vL n + g := by
            simp only [numthread] at hvL64 htot64 ⊢
            omega
          rw [Nat.mod_eq_of_lt hv] at h3
          omega
        rw [hc1, hc2]
  · rw [if_neg hj]
    apply sum_map_range_zero
    intro g hg
    rw [hcount]
    have hc1 : (wideElems vL
        (copyLoopWrites (n / vL) (numthread * vectorNumblock vL n)
          (n / vL) g)).count j = 0 := by
      rw [List.count_eq_zero]
      intro hm
      rw [hm1] at hm
      have h3 := (Nat.div_lt_iff_lt_mul hvL).mp hm.2.1
      have h4 : (n / vL) * vL ≤ n := Nat.div_mul_le_self n vL
      omega
    have hc2 : (copyLoopWrites n
        (numthread * vectorNumblock vL n + g % numthread) n
        (g + (n / vL) * vL)).count j = 0 := by
      rw [List.count_eq_zero]
      intro hm
      rw [hm2] at hm
      exact hj hm.2.1
    rw [hc1, hc2]

theorem mfThreadWrites_nodup (nWide t b : ℕ) :
    (mfThreadWrites 2 nWide t b numthread).Nodup := by
  have hnt : 0 < numthread := by decide
  unfold mfThreadWrites
  rw [show List.range 2 = [0, 1] from rfl]
  by_cases h0 : t + 2 * b * numthread < nWide <;>
    by_cases h1 : t + 2 * b * numthread + numthread < nWide <;>
    simp [List.filterMap_cons, h0, h1] <;> omega

theorem mfGridWriteCount_eq (n w : ℕ) :
    mfGridWriteCount n w =
      if w < n / 4 ∧ w < 2 * numthread * mfNumblock n then 1 else 0 := by
  unfold mfGridWriteCount
  by_cases hw : w < n / 4 ∧ w < 2 * numthread * mfNumblock n
  · rw [if_pos hw]
    obtain ⟨hw1, hw2⟩ := hw
    simp only [numthread] at hw2
    apply sum_map_range_one _ _ (w % 128 % 64 + 64 * (w / 128))
    · simp only [numthread]
      omega
    · apply count_eq_one_of_nodup_mem (mfThreadWrites_nodup _ _ _)
      rw [mfThreadWrites_mem]
      refine ⟨w % 128 / 64, by omega, ?_, ?_⟩
      · simp only [numthread]
        omega
      · simp only [numthread]
        omega
    · intro g hg hne
      rw [List.count_eq_zero]
      intro hm
      rw [mfThreadWrites_mem] at hm
      obtain ⟨i, hi, hlt, heq⟩ := hm
      apply hne
      simp only [numthread] at hg hlt heq ⊢
      omega
  · rw [if_neg hw]
    apply sum_map_range_zero
    intro g hg
    rw [List.count_eq_zero]
    intro hm
    rw [mfThreadWrites_mem] at hm
    obtain ⟨i, hi, hlt, heq⟩ := hm
    apply hw
    simp only [numthread] at hg hlt heq ⊢
    constructor
    · omega
    · omega

/-- C6 (amended): with the launch geometries computed by the entry points,
every element index in `[0, N)` is written exactly once in aggregate by the
scalar and vector kernels (and indices outside `[0, N)` are never written).
For the register-blocked kernel, wide index `w` is written exactly once when
it is both in bounds (`w < N/4`) and within the launched grid's reach
(`w < 2*numthread*mfNumblock N`), and zero times otherwise — so no index is
ever written twice, but an in-bounds wide index beyond the grid's reach is
written zero times rather than once. -/
theorem grid_write_counts (vL n j w : ℕ) (hvL : 0 < vL)
    (hvL64 : vL ≤ numthread) :
    (scalarGridWriteCount n j = if j < n then 1 else 0)
    ∧ (vectorGridWriteCount vL n j = if j < n then 1 else 0)
    ∧ (mfGridWriteCount n w =
        if w < n / 4 ∧ w < 2 * numthread * mfNumblock n then 1 else 0) :=
  ⟨scalarGridWriteCount_eq n j, vectorGridWriteCount_eq vL n j hvL hvL64,
    mfGridWriteCount_eq n w⟩

/-- witness for `grid_write_counts` at `vL = 4`, `n = 5`, `j = 3`. -/
theorem grid_write_counts_witness :
    ((0 : ℕ) < 4 ∧ (4 : ℕ) ≤ numthread) ∧ vectorGridWriteCount 4 5 3 = 1 := by
  refine ⟨⟨by decide, by decide⟩, ?_⟩
  have h := (grid_write_counts 4 5 3 0 (by decide) (by decide)).2.1
  simpa using h

/-- C6 counterexample: for `N = 516` floats the kernel is handed
`516/4 = 129` wide words but `memcpyFloat` launches only
`(516/8 - 1)/64 + 1 = 1` block, whose 64 threads reach wide indices
`0, …, 127`; the in-bounds wide index `128` (floats 512-515) is written by no
thread at all, so it is not written exactly once. -/
theorem mf_uncovered_wide_word :
    128 < 516 / 4 ∧ mfGridWriteCount 516 128 = 0 := by
  constructor
  · decide
  · rw [mfGridWriteCount_eq]
    norm_num [mfNumblock, numthread]

end GpuMemcpy
